import Mathlib

/-!
# BsToPhiPhi: AnaUtil helpers and the phi-candidate comparator

A shallow embedding of `src/src/AnaUtil.cc` and of the candidate structures of
`src/interface/BsAnalysis.h`, followed by the properties proved about them.

Conventions of the embedding

* a `std::string` is a list of characters (`Str`); only equality of characters is used;
* `std::string::size_type` is a natural number below `2 ^ 64`, `npos` is `2 ^ 64 - 1`, and
  unsigned subtraction wraps (`usub`);
* a call that throws, dereferences an invalid iterator or pointer, or a loop that is cut off
  by its fuel, yields `none`;
* `std::map<string, double>` is an association list with unique keys (`CutMap`); the order
  in which the map iterates is not modelled, `find` and `insert` are;
* `double` values are an abstract type (`Val`) wherever they are only stored and returned, and
  an ordered field wherever they are compared or subtracted;
* the ROOT objects (`gDirectory`, `TProfile`) and `atof` belong to external libraries and are
  parameters of the functions that use them.
-/

namespace AnaUtil

/-! ## Strings -/

/-- A `std::string`: its characters in order. -/
abbrev Str := List Char

/-- The constant `std::string::npos`, the largest `size_type` value. -/
def npos : Nat := 2 ^ 64 - 1

/-- Subtraction of two `size_type` values, modulo `2 ^ 64`. -/
def usub (a b : Nat) : Nat := (a + 2 ^ 64 - b % 2 ^ 64) % 2 ^ 64

/-- Index of the first character of `l` satisfying `p`, where `l` starts at index `i` of the
whole string; `npos` when there is none. -/
def scanFrom (p : Char → Bool) : Str → Nat → Nat
  | [], _ => npos
  | c :: cs, i => if p c then i else scanFrom p cs (i + 1)

/-- The call `str.find_first_of(delims, pos)`. -/
def find_first_of (str delims : Str) (pos : Nat) : Nat :=
  scanFrom (fun c => decide (c ∈ delims)) (str.drop pos) pos

/-- The call `str.find_first_not_of(delims, pos)`. -/
def find_first_not_of (str delims : Str) (pos : Nat) : Nat :=
  scanFrom (fun c => !decide (c ∈ delims)) (str.drop pos) pos

/-- The call `str.substr(pos, n)`: throws (`none`) when `pos > str.size()`, otherwise the
characters from `pos` on, at most `n` of them. -/
def substr (str : Str) (pos n : Nat) : Option Str :=
  if str.length < pos then none else some ((str.drop pos).take n)

/-- The `while` loop of `tokenize` (AnaUtil.cc 40-49), with the loop variables `lastPos`,
`pos` and the output vector as state. The first argument bounds the number of iterations;
`none` when the bound is reached or `substr` throws. -/
def tokenizeLoop (str delims : Str) : Nat → Nat → Nat → List Str → Option (List Str)
  | 0, _, _, _ => none
  | fuel + 1, lastPos, pos, tokens =>
    if npos ≠ pos ∨ npos ≠ lastPos then
      match substr str lastPos (usub pos lastPos) with
      | none => none
      | some tok =>
        let lastPos1 := find_first_not_of str delims pos
        let pos1 := find_first_of str delims lastPos1
        tokenizeLoop str delims fuel lastPos1 pos1 (tokens ++ [tok])
    else some tokens

/-- The function `AnaUtil::tokenize` (AnaUtil.cc 33-50). The result is the content of
`tokens` after the call. The loop is given `str.size() + 1` iterations. -/
def tokenize (str : Str) (tokens : List Str) (delimiters : Str) : Option (List Str) :=
  let lastPos := find_first_not_of str delimiters 0
  let pos := find_first_of str delimiters lastPos
  tokenizeLoop str delimiters (str.length + 1) lastPos pos tokens

/-- Specification of the tokens: `str` is cut at every delimiter character and the empty
pieces are dropped, which leaves the maximal non-empty delimiter-free substrings in
left-to-right order. -/
def maximalRuns (str delims : Str) : List Str :=
  (str.splitOnP (fun c => decide (c ∈ delims))).filter (fun t => !t.isEmpty)

/-- The relation between a string and the list of its maximal delimiter-free substrings:
the string is a run of delimiter characters, or it is such a run (possibly empty), then a
non-empty token without delimiter characters, then a rest that is empty or starts with a
delimiter character and is decomposed in the same way. -/
inductive MaximalTokens (delims : Str) : Str → List Str → Prop
  | nil (gap : Str) (hgap : ∀ c ∈ gap, c ∈ delims) : MaximalTokens delims gap []
  | cons (gap tok rest : Str) (R : List Str) (hgap : ∀ c ∈ gap, c ∈ delims)
      (hne : tok ≠ []) (hfree : ∀ c ∈ tok, c ∉ delims)
      (hstop : ∀ c ∈ rest.head?, c ∈ delims) (hrest : MaximalTokens delims rest R) :
      MaximalTokens delims (gap ++ tok ++ rest) (tok :: R)

/-! ## bit_print -/

/-- The constant `CHAR_BIT`. -/
def CHAR_BIT : Int := 8

/-- The local constant `INT_BIT = 4*CHAR_BIT` of `bit_print`. -/
def INT_BIT : Int := 4 * CHAR_BIT

/-- The local `mask = 1 << 31` of `bit_print`, as a 32-bit pattern. -/
def mask : Nat := 2 ^ 31

/-- The statement `value <<= 1` on a 32-bit pattern, the shift taken modulo `2 ^ 32`. -/
def shl1 (value : Nat) : Nat := (value * 2) % 2 ^ 32

/-- One iteration of the second `for` loop of `bit_print` (AnaUtil.cc 61-63), for the loop
counter `i`; the state is the current `value` and the characters written so far. -/
def bit_print_step (pos : Int) (st : Nat × List Char) (i : Nat) : Nat × List Char :=
  let os1 := st.2 ++ [if st.1 &&& mask = 0 then '0' else '1']
  let value1 := shl1 st.1
  if Int.tmod (INT_BIT - pos + (i : Int)) CHAR_BIT = 0 ∧ (i : Int) ≠ INT_BIT then
    (value1, os1 ++ [' '])
  else (value1, os1)

/-- The function `AnaUtil::bit_print` (AnaUtil.cc 51-66): `value` is the 32-bit pattern of the
argument, `os` the characters already on the stream, the result the characters on the stream
afterwards. The statement `if (pos > INT_BIT) i = INT_BIT;` of line 55 assigns the loop
counter `i`, which the next line sets to 1 again, so it changes nothing: `pos` is used as
given. The first loop runs for `i = 1 .. INT_BIT - pos`, the second for `i = 1 .. pos`. -/
def bit_print (value : Nat) (pos : Int) (os : List Char) : List Char :=
  let value1 := Nat.iterate shl1 (INT_BIT - pos).toNat value
  let os1 := os ++ [' ']
  let st := (List.range' 1 pos.toNat).foldl (bit_print_step pos) (value1, os1)
  st.2 ++ ['\n']

/-- The binary digits among the characters written. -/
def binaryDigits (out : List Char) : List Char :=
  out.filter (fun c => c = '0' ∨ c = '1')

/-- Specification of the digits: the `n` low-order bits of `value`, bit `n - 1` first and
bit 0 last. -/
def lowBits (n value : Nat) : List Char :=
  ((List.range n).reverse).map (fun b => if value.testBit b then '1' else '0')

/-! ## deltaPhi -/

section DeltaPhi

variable {α : Type} [LinearOrderedField α]

/-- The loop `while (dphi > pi) dphi -= 2 * pi;` (AnaUtil.cc 69), with a bound on the number
of iterations; `none` when the bound is reached. -/
def deltaPhiDown (pi : α) : Nat → α → Option α
  | 0, _ => none
  | fuel + 1, dphi => if dphi > pi then deltaPhiDown pi fuel (dphi - 2 * pi) else some dphi

/-- The loop `while (dphi <= -pi) dphi += 2 * pi;` (AnaUtil.cc 70), with a bound on the number
of iterations; `none` when the bound is reached. -/
def deltaPhiUp (pi : α) : Nat → α → Option α
  | 0, _ => none
  | fuel + 1, dphi => if dphi ≤ -pi then deltaPhiUp pi fuel (dphi + 2 * pi) else some dphi

/-- The function `AnaUtil::deltaPhi(double, double)` (AnaUtil.cc 67-72) over an ordered field,
`pi` standing for `TMath::Pi()` and `fuel` bounding each of the two loops. -/
def deltaPhi (pi : α) (fuel : Nat) (phia phib : α) : Option α :=
  match deltaPhiDown pi fuel (phia - phib) with
  | none => none
  | some dphi => deltaPhiUp pi fuel dphi

end DeltaPhi

/-! ## Cut maps -/

/-- A `std::map<string, double>`: the entries, each name at most once. -/
abbrev CutMap (Val : Type) := List (Str × Val)

/-- The call `m.find(k)`: the value of the entry named `k`, `none` for the end iterator. -/
def mapFind {Val : Type} : CutMap Val → Str → Option Val
  | [], _ => none
  | (k1, v) :: rest, k => if k1 = k then some v else mapFind rest k

/-- The call `m.insert(pair(k, v))`: adds the entry unless the name is already present. -/
def mapInsert {Val : Type} (m : CutMap Val) (k : Str) (v : Val) : CutMap Val :=
  match mapFind m k with
  | some _ => m
  | none => m ++ [(k, v)]

/-- The names of a cut map. -/
def mapKeys {Val : Type} (m : CutMap Val) : List Str := m.map Prod.fst

/-- What a call of `cutValue` leaves behind: the value returned (`none` when the end iterator
is dereferenced), the entries printed on `cerr`, and the map. -/
structure CutValueOutcome (Val : Type) where
  value : Option Val
  cerr : List (Str × Val)
  m : CutMap Val

/-- The function `AnaUtil::cutValue` (AnaUtil.cc 85-93): when the name is not found the
entries of the map are printed; the value returned is `m.find(cname)->second`. -/
def cutValue {Val : Type} (m : CutMap Val) (cname : Str) : CutValueOutcome Val :=
  let cerr := match mapFind m cname with
    | none => m
    | some _ => []
  CutValueOutcome.mk (mapFind m cname) cerr m

/-- The function `AnaUtil::buildList` (AnaUtil.cc 94-99): the iteration starts at
`tokens.begin()+1`, which is outside an empty vector (`none`); otherwise every element from
the second on is pushed to `list`. -/
def buildList (tokens : List Str) (list : List Str) : Option (List Str) :=
  match tokens with
  | [] => none
  | _ :: rest => some (rest.foldl (fun acc tok => acc ++ [tok]) list)

/-- A pointer to a cut map. -/
abbrev Ptr := Nat

/-- The memory `storeCuts` works on: `hmap` registers a pointer under each list name, `heap`
gives the cut map a pointer refers to (`none` for a null or dangling pointer). -/
structure Store (Val : Type) where
  hmap : List (Str × Ptr)
  heap : Ptr → Option (CutMap Val)

/-- The call `hmap.find(key)`: the pointer registered under `key`, `none` for the end
iterator. -/
def hmapFind : List (Str × Ptr) → Str → Option Ptr
  | [], _ => none
  | (k1, p) :: rest, k => if k1 = k then some p else hmapFind rest k

/-- The loop of `storeCuts` (AnaUtil.cc 109-116) over the tokens after the first, for the
map pointer `m`. Each token is split on `=`; with fewer than two pieces the loop continues,
otherwise the first two pieces are inserted through the pointer. -/
def storeCutsLoop {Val : Type} (atof : Str → Val) (m : Ptr) :
    List Str → (Ptr → Option (CutMap Val)) → Option (Ptr → Option (CutMap Val))
  | [], heap => some heap
  | tok :: rest, heap =>
    match tokenize tok [] ['='] with
    | none => none
    | some cutstr =>
      if cutstr.length < 2 then storeCutsLoop atof m rest heap
      else
        match cutstr[0]?, cutstr[1]?, heap m with
        | some p0, some p1, some cuts =>
          storeCutsLoop atof m rest (Function.update heap m (some (mapInsert cuts p0 (atof p1))))
        | _, _, _ => none

/-- The function `AnaUtil::storeCuts` (AnaUtil.cc 104-118): `tokens.at(0)` throws on an empty
vector; a key that is not found leaves everything as it is. -/
def storeCuts {Val : Type} (atof : Str → Val) (tokens : List Str) (s : Store Val) :
    Option (Store Val) :=
  match tokens[0]? with
  | none => none
  | some key =>
    match hmapFind s.hmap key with
    | none => some s
    | some m =>
      match storeCutsLoop atof m (tokens.drop 1) s.heap with
      | none => none
      | some heap1 => some (Store.mk s.hmap heap1)

/-- Specification of one token of a cut line: split on `=`; with at least two pieces `p0`,
`p1` the entry `p0 -> atof(p1)` is added when `p0` is not yet a name of the map, and with
fewer than two pieces nothing is added. -/
def processCutToken {Val : Type} (atof : Str → Val) (cuts : CutMap Val) (tok : Str) :
    CutMap Val :=
  match maximalRuns tok ['='] with
  | p0 :: p1 :: _ => if p0 ∈ mapKeys cuts then cuts else cuts ++ [(p0, atof p1)]
  | _ => cuts

/-- Specification of a cut line: its tokens processed in order. -/
def processCutTokens {Val : Type} (atof : Str → Val) (cuts : CutMap Val) (toks : List Str) :
    CutMap Val :=
  toks.foldl (processCutToken atof) cuts

/-- A stand-in for `atof` on unsigned decimal literals: the value of the leading digits. -/
def decimalValue (s : Str) : Nat :=
  (s.takeWhile Char.isDigit).foldl (fun acc c => 10 * acc + (c.toNat - 48)) 0

/-! ## Profile histograms -/

/-- An object of the current directory: its name and either a profile histogram (an object
that `dynamic_cast<TProfile*>` accepts) or anything else. -/
structure TObject (P O : Type) where
  name : Str
  body : P ⊕ O

/-- The call `gDirectory->GetList()->FindObject(hname)`: the position of the first object
with that name, `none` for a null pointer. -/
def FindObject {P O : Type} : List (TObject P O) → Str → Option Nat
  | [], _ => none
  | obj :: rest, hname =>
    if obj.name = hname then some 0 else (FindObject rest hname).map (fun i => i + 1)

/-- The function `AnaUtil::getProfile(const char*)` (AnaUtil.cc 241-248): the object found,
when the `dynamic_cast` to `TProfile*` succeeds. -/
def getProfile {P O : Type} (dir : List (TObject P O)) (hname : Str) : Option Nat :=
  match FindObject dir hname with
  | none => none
  | some i =>
    match dir[i]? with
    | some (TObject.mk _ (Sum.inl _)) => some i
    | _ => none

/-- The function `AnaUtil::fillProfile(const char*, ...)` (AnaUtil.cc 253-259): the value
returned and the directory afterwards; `Fill` is `TProfile::Fill`. -/
def fillProfile {P O X W : Type} (Fill : P → X → X → W → P) (dir : List (TObject P O))
    (hname : Str) (xvalue yvalue : X) (w : W) : Bool × List (TObject P O) :=
  match getProfile dir hname with
  | none => (false, dir)
  | some i =>
    (true, dir.modify
      (fun obj => match obj.body with
        | Sum.inl h => TObject.mk obj.name (Sum.inl (Fill h xvalue yvalue w))
        | Sum.inr _ => obj) i)

/-- The call `hname.c_str()` read as a C string: the characters before the first NUL. -/
def c_str (hname : Str) : Str := hname.takeWhile (fun c => c ≠ Char.ofNat 0)

/-- The function `AnaUtil::fillProfile(const string&, ...)` (AnaUtil.cc 260-262). -/
def fillProfileString {P O X W : Type} (Fill : P → X → X → W → P) (dir : List (TObject P O))
    (hname : Str) (xvalue yvalue : X) (w : W) : Bool × List (TObject P O) :=
  fillProfile Fill dir (c_str hname) xvalue yvalue w

end AnaUtil

/-! ## Candidate structures of BsAnalysis.h -/

/-- The four components of a `TLorentzVector`. -/
structure TLorentzVector (α : Type) where
  px : α
  py : α
  pz : α
  e : α

/-- The struct `PhiInfo` (BsAnalysis.h 18-41). -/
structure PhiInfo (α : Type) where
  indx1 : Int
  indx2 : Int
  dmass : α
  dxy : α
  dz : α
  dr : α
  v : TLorentzVector α
  vertexX : α
  vertexY : α
  vertexZ : α

/-- The call operator of `PhiInfoComparator` (BsAnalysis.h 66-68). -/
def PhiInfoComparator {α : Type} [LinearOrder α] (a b : PhiInfo α) : Bool :=
  decide (a.dmass < b.dmass)

/-- The constant `kmass` (BsAnalysis.h 14), in GeV. -/
def kmass {α : Type} [LinearOrderedField α] : α := 493 / 1000

/-- The constant `phi_polemass` (BsAnalysis.h 15), in GeV. -/
def phi_polemass {α : Type} [LinearOrderedField α] : α := 1019445 / 1000000

namespace AnaUtil

/-! ## Concrete inputs -/

/-- A store with two list names registered for two different cut maps; the map of `t` already
holds the entry `y -> 7`. -/
def sampleStore : Store Nat :=
  Store.mk [(['t'], 0), (['p'], 1)]
    (fun q => if q = 0 then some [(['y'], 7)] else if q = 1 then some [] else none)

/-- A store in which the list names `a` and `b` are registered for the same (empty) cut map,
at pointer 0. -/
def aliasStore : Store Nat :=
  Store.mk [(['a'], 0), (['b'], 0)] (fun q => if q = 0 then some [] else none)

/-- A cut line for the list `t`: the tokens `t`, `x=12`, `x=3`, `y=5`, `z=`, `=3`, `w`. -/
def sampleLine : List Str :=
  [['x', '=', '1', '2'], ['x', '=', '3'], ['y', '=', '5'], ['z', '='], ['=', '3'], ['w']]

end AnaUtil

namespace BsAnalysis

open AnaUtil

/-- Modelled from the spec: the selection and kinematics `findPhiCandidates` is built from,
none of which is in the sources at hand (`TTStudy::Track`, the track and pair cuts, `phiLV`,
`TLorentzVector::M`, `calculateDeltaPos`, `calculateDeltaR`, the name of the mass-window cut).
The spec speaks of kinematic and geometric selection criteria for tracks and pairs, of the
combined invariant mass of a pair, and of a mass window around the reference mass. -/
structure PhiSelection (Track α : Type) where
  passTrack : CutMap α → Track → Bool
  passPair : CutMap α → Track → Track → Bool
  phiLV : Track → Track → TLorentzVector α
  M : TLorentzVector α → α
  deltaPos : Track → Track → α × α
  deltaR : Track → Track → α
  vertex : Track → Track → α × α × α
  massWindowCut : Str

/-- Modelled from the spec: the candidate recorded for the tracks at positions `i < j`, with
`dmass` the difference of the pair mass from the nominal mass `phi_polemass`. -/
def makePhiInfo {Track α : Type} [LinearOrderedField α] (sel : PhiSelection Track α)
    (i j : Nat) (ti tj : Track) : PhiInfo α :=
  PhiInfo.mk (i : Int) (j : Int) (sel.M (sel.phiLV ti tj) - phi_polemass)
    (sel.deltaPos ti tj).1 (sel.deltaPos ti tj).2 (sel.deltaR ti tj) (sel.phiLV ti tj)
    (sel.vertex ti tj).1 (sel.vertex ti tj).2.1 (sel.vertex ti tj).2.2

/-- Modelled from the spec: the test applied to the pair of the tracks at positions `i` and
`j`: both tracks and the pair pass their cuts and the pair mass lies within `window` of the
nominal mass. -/
def phiPair {Track α : Type} [LinearOrderedField α] (sel : PhiSelection Track α)
    (trkCutMap phiCutMap : CutMap α) (window : α) (trackList : List Track) (i j : Nat) :
    Option (PhiInfo α) :=
  match trackList[i]?, trackList[j]? with
  | some ti, some tj =>
    if sel.passTrack trkCutMap ti = true ∧ sel.passTrack trkCutMap tj = true
        ∧ sel.passPair phiCutMap ti tj = true
        ∧ |sel.M (sel.phiLV ti tj) - phi_polemass| ≤ window then
      some (makePhiInfo sel i j ti tj)
    else none
  | _, _ => none

/-- Modelled from the spec: the candidates of one event, the pairwise combination of the
tracks, `i` running over all positions and `j` over the positions after `i`. -/
def phiPairs {Track α : Type} [LinearOrderedField α] (sel : PhiSelection Track α)
    (trkCutMap phiCutMap : CutMap α) (window : α) (trackList : List Track) :
    List (PhiInfo α) :=
  (List.range trackList.length).flatMap (fun i =>
    (List.range' (i + 1) (trackList.length - (i + 1))).filterMap (fun j =>
      phiPair sel trkCutMap phiCutMap window trackList i j))

/-- Modelled from the spec: `BsAnalysis::findPhiCandidates`, of which only the declaration
(BsAnalysis.h 101-104) is in the sources at hand. The mass window is read from the phi cut
map with `cutValue` (`none` when the cut is missing), and the candidates of the event are
appended to `phiList`. -/
def findPhiCandidates {Track α : Type} [LinearOrderedField α] (sel : PhiSelection Track α)
    (trkCutMap phiCutMap : CutMap α) (trackList : List Track) (phiList : List (PhiInfo α)) :
    Option (List (PhiInfo α)) :=
  match (cutValue phiCutMap sel.massWindowCut).value with
  | none => none
  | some window => some (phiList ++ phiPairs sel trkCutMap phiCutMap window trackList)

/-- A selection on tracks given by their energy alone: every track and pair passes, the pair
vector is the sum of the energies at rest, and the window cut is named `w`. -/
def sampleSelection : PhiSelection Rat Rat :=
  PhiSelection.mk (fun _ _ => true) (fun _ _ _ => true)
    (fun a b => TLorentzVector.mk 0 0 0 (a + b)) (fun v => v.e)
    (fun _ _ => (0, 0)) (fun _ _ => 0) (fun _ _ => (0, 0, 0)) ['w']

end BsAnalysis

/-! # Properties -/

namespace AnaUtil

/-! ## tokenize -/

theorem scanFrom_eq (p : Char → Bool) (l : Str) (i : Nat) :
    scanFrom p l i =
      if l.dropWhile (fun c => !p c) = [] then npos
      else i + (l.takeWhile (fun c => !p c)).length := by
  induction l generalizing i with
  | nil => simp [scanFrom]
  | cons c cs ih =>
    by_cases h : p c
    · simp [scanFrom, h, List.dropWhile, List.takeWhile]
    · simp only [scanFrom, h, List.dropWhile, List.takeWhile, ih]
      simp
      split <;> omega

theorem drop_takeWhile_length {α : Type} (p : α → Bool) (l : List α) :
    l.drop (l.takeWhile p).length = l.dropWhile p := by
  induction l with
  | nil => simp
  | cons c cs ih =>
    by_cases h : p c <;> simp [List.takeWhile, List.dropWhile, h, ih]

theorem take_takeWhile_length {α : Type} (p : α → Bool) (l : List α) :
    l.take (l.takeWhile p).length = l.takeWhile p := by
  induction l with
  | nil => simp
  | cons c cs ih =>
    by_cases h : p c <;> simp [List.takeWhile, h, ih]

theorem splitOnP_eq_takeWhile (p : Char → Bool) (s : Str) :
    s.splitOnP p = s.takeWhile (fun c => !p c) ::
      (match s.dropWhile (fun c => !p c) with
        | [] => []
        | _ :: r => r.splitOnP p) := by
  induction s with
  | nil => simp
  | cons c cs ih =>
    rw [List.splitOnP_cons]
    by_cases h : p c
    · simp [h, List.takeWhile, List.dropWhile]
    · simp only [h, List.takeWhile, List.dropWhile]
      rw [ih]
      simp

theorem maximalRuns_nil (delims : Str) : maximalRuns [] delims = [] := by
  simp [maximalRuns]

theorem maximalRuns_cons_delim (delims : Str) (c : Char) (s : Str) (h : c ∈ delims) :
    maximalRuns (c :: s) delims = maximalRuns s delims := by
  simp [maximalRuns, List.splitOnP_cons, h]

theorem maximalRuns_dropWhile (delims s : Str) :
    maximalRuns s delims = maximalRuns (s.dropWhile (fun c => decide (c ∈ delims))) delims := by
  induction s with
  | nil => simp
  | cons c cs ih =>
    by_cases h : c ∈ delims
    · rw [maximalRuns_cons_delim _ _ _ h, ih]
      simp [List.dropWhile, h]
    · simp [List.dropWhile, h]

theorem maximalRuns_cons_token (delims : Str) (c : Char) (s : Str) (h : c ∉ delims) :
    maximalRuns (c :: s) delims =
      (c :: s).takeWhile (fun c => !decide (c ∈ delims)) ::
        maximalRuns ((c :: s).dropWhile (fun c => !decide (c ∈ delims))) delims := by
  have hh := splitOnP_eq_takeWhile (fun c => decide (c ∈ delims)) (c :: s)
  unfold maximalRuns
  rw [hh]
  have hne : ((c :: s).takeWhile (fun c => !decide (c ∈ delims))) ≠ [] := by
    simp [List.takeWhile, h]
  rw [List.filter_cons_of_pos (by simpa using hne)]
  congr 1
  generalize hr : (c :: s).dropWhile (fun c => !decide (c ∈ delims)) = r
  cases r with
  | nil => simp
  | cons d r =>
    have hd : d ∈ delims := by
      have := List.head_dropWhile_not (fun c => !decide (c ∈ delims)) (c :: s) (by rw [hr]; simp)
      simpa [hr] using this
    simp [List.splitOnP_cons, hd]


theorem find_first_not_of_eq (str delims : Str) (k : Nat) :
    find_first_not_of str delims k =
      if (str.drop k).dropWhile (fun c => decide (c ∈ delims)) = [] then npos
      else k + ((str.drop k).takeWhile (fun c => decide (c ∈ delims))).length := by
  unfold find_first_not_of
  rw [scanFrom_eq]
  simp

theorem find_first_of_eq (str delims : Str) (k : Nat) :
    find_first_of str delims k =
      if (str.drop k).dropWhile (fun c => !decide (c ∈ delims)) = [] then npos
      else k + ((str.drop k).takeWhile (fun c => !decide (c ∈ delims))).length := by
  unfold find_first_of
  rw [scanFrom_eq]

theorem find_first_not_of_ge (str delims : Str) (k : Nat) (h : str.length ≤ k) :
    find_first_not_of str delims k = npos := by
  rw [find_first_not_of_eq, List.drop_eq_nil_of_le h]; simp

theorem find_first_of_ge (str delims : Str) (k : Nat) (h : str.length ≤ k) :
    find_first_of str delims k = npos := by
  rw [find_first_of_eq, List.drop_eq_nil_of_le h]; simp

theorem tokenizeLoop_from (str delims : Str) (hlen : str.length < npos) :
    ∀ (m k fuel : Nat) (T : List Str), str.length - k ≤ m → k ≤ str.length → m + 1 ≤ fuel →
      tokenizeLoop str delims fuel (find_first_not_of str delims k)
        (find_first_of str delims (find_first_not_of str delims k)) T
        = some (T ++ maximalRuns (str.drop k) delims) := by
  intro m
  induction m with
  | zero =>
    intro k fuel T hm hk hf
    have hk2 : str.length ≤ k := by omega
    obtain ⟨f, rfl⟩ : ∃ f, fuel = f + 1 := ⟨fuel - 1, by omega⟩
    rw [find_first_not_of_ge _ _ _ hk2, find_first_of_ge _ _ _ (le_of_lt hlen),
      List.drop_eq_nil_of_le hk2]
    simp [tokenizeLoop, maximalRuns_nil]
  | succ m ih =>
    intro k fuel T hm hk hf
    obtain ⟨f, rfl⟩ : ∃ f, fuel = f + 1 := ⟨fuel - 1, by omega⟩
    have hnpos : npos = 2 ^ 64 - 1 := rfl
    by_cases h1 : (str.drop k).dropWhile (fun c => decide (c ∈ delims)) = []
    · rw [find_first_not_of_eq, if_pos h1, find_first_of_ge _ _ _ (le_of_lt hlen),
        maximalRuns_dropWhile, h1]
      simp [tokenizeLoop, maximalRuns_nil]
    · -- the next token starts at `a`
      have hfn := find_first_not_of_eq str delims k
      rw [if_neg h1] at hfn
      generalize ha : k + ((str.drop k).takeWhile (fun c => decide (c ∈ delims))).length = a at hfn
      have hdrop : str.drop a = (str.drop k).dropWhile (fun c => decide (c ∈ delims)) := by
        rw [← ha, ← List.drop_drop, drop_takeWhile_length]
      rw [hfn, maximalRuns_dropWhile, ← hdrop]
      rw [← hdrop] at h1
      obtain ⟨c, s1, hs1⟩ : ∃ c s1, str.drop a = c :: s1 := by
        cases hd : str.drop a with
        | nil => exact absurd hd h1
        | cons c s1 => exact ⟨c, s1, rfl⟩
      have hc : c ∉ delims := by
        have := List.head_dropWhile_not (fun c => decide (c ∈ delims)) (str.drop k)
          (by rw [← hdrop]; exact h1)
        simpa [← hdrop, hs1] using this
      have halen : (str.drop a).length = str.length - a := List.length_drop a str
      have ha_lt : a < str.length := by
        rw [hs1] at halen; simp at halen; omega
      have hka : k ≤ a := by omega
      -- the token and the rest
      have hsplit := List.takeWhile_append_dropWhile (fun c => !decide (c ∈ delims)) (str.drop a)
      have htne : ((str.drop a).takeWhile (fun c => !decide (c ∈ delims))) ≠ [] := by
        rw [hs1]; simp [List.takeWhile, hc]
      have htlen : 0 < ((str.drop a).takeWhile (fun c => !decide (c ∈ delims))).length :=
        List.length_pos.mpr htne
      have hsum : ((str.drop a).takeWhile (fun c => !decide (c ∈ delims))).length +
          ((str.drop a).dropWhile (fun c => !decide (c ∈ delims))).length = str.length - a := by
        rw [← halen, ← List.length_append, hsplit]
      have hfo := find_first_of_eq str delims a
      have hruns : maximalRuns (str.drop a) delims =
          (str.drop a).takeWhile (fun c => !decide (c ∈ delims)) ::
            maximalRuns ((str.drop a).dropWhile (fun c => !decide (c ∈ delims))) delims := by
        rw [hs1]; exact maximalRuns_cons_token delims c s1 hc
      have hrest : str.drop (a + ((str.drop a).takeWhile (fun c => !decide (c ∈ delims))).length)
          = (str.drop a).dropWhile (fun c => !decide (c ∈ delims)) := by
        rw [← List.drop_drop, drop_takeWhile_length]
      have hIH := ih (a + ((str.drop a).takeWhile (fun c => !decide (c ∈ delims))).length) f
        (T ++ [(str.drop a).takeWhile (fun c => !decide (c ∈ delims))])
        (by omega) (by omega) (by omega)
      rw [hrest] at hIH
      rw [hruns]
      have hcond : npos ≠ find_first_of str delims a ∨ npos ≠ a := Or.inr (by omega)
      rw [tokenizeLoop, if_pos hcond]
      by_cases hr : (str.drop a).dropWhile (fun c => !decide (c ∈ delims)) = []
      · rw [if_pos hr] at hfo
        have htall : (str.drop a).takeWhile (fun c => !decide (c ∈ delims)) = str.drop a := by
          rw [hr, List.append_nil] at hsplit; exact hsplit
        have hsub : substr str a (usub (find_first_of str delims a) a) = some (str.drop a) := by
          rw [hfo]
          unfold substr usub
          rw [if_neg (by omega)]
          congr 1
          apply List.take_of_length_le
          rw [halen, hnpos]
          omega
        rw [hsub]
        simp only []
        rw [hfo, find_first_not_of_ge _ _ _ (le_of_lt hlen)]
        rw [htall] at hIH ⊢
        rw [hr] at hIH ⊢
        have hn : a + (str.drop a).length = str.length := by omega
        rw [hn, find_first_not_of_ge _ _ _ (le_refl _)] at hIH
        rw [hIH]; simp
      · rw [if_neg hr] at hfo
        have hsub : substr str a (usub (find_first_of str delims a) a) =
            some ((str.drop a).takeWhile (fun c => !decide (c ∈ delims))) := by
          rw [hfo]
          unfold substr usub
          rw [if_neg (by omega)]
          congr 1
          have hrl : 0 < ((str.drop a).dropWhile (fun c => !decide (c ∈ delims))).length :=
            List.length_pos.mpr hr
          rw [Nat.mod_eq_of_lt (by omega : a < 2 ^ 64)]
          have : (a + ((str.drop a).takeWhile (fun c => !decide (c ∈ delims))).length + 2 ^ 64 - a)
              % 2 ^ 64 = ((str.drop a).takeWhile (fun c => !decide (c ∈ delims))).length := by
            omega
          rw [this, take_takeWhile_length]
        rw [hsub]
        simp only []
        rw [hfo, hIH]; simp


theorem splitOnP_piece_free (p : Char → Bool) :
    ∀ (n : Nat) (s : Str), s.length ≤ n → ∀ t ∈ s.splitOnP p, ∀ c ∈ t, p c = false := by
  intro n
  induction n with
  | zero =>
    intro s hs t ht c hc
    have : s = [] := List.length_eq_zero.mp (by omega)
    subst this
    simp at ht
    subst ht
    simp at hc
  | succ n ih =>
    intro s hs t ht c hc
    rw [splitOnP_eq_takeWhile] at ht
    rcases List.mem_cons.mp ht with h | h
    · subst h
      have := List.mem_takeWhile_imp hc
      simpa using this
    · have hsplit := List.takeWhile_append_dropWhile (fun c => !p c) s
      cases hd : s.dropWhile (fun c => !p c) with
      | nil => rw [hd] at h; simp at h
      | cons d r =>
        rw [hd] at h
        have hlen : r.length ≤ n := by
          have := congrArg List.length hsplit
          rw [hd, List.length_append, List.length_cons] at this
          omega
        exact ih r hlen t h c hc

theorem maximalRuns_token (str delims : Str) :
    ∀ t ∈ maximalRuns str delims, t ≠ [] ∧ ∀ c ∈ t, c ∉ delims := by
  intro t ht
  unfold maximalRuns at ht
  rw [List.mem_filter] at ht
  refine ⟨?_, ?_⟩
  · intro h; rw [h] at ht; simp at ht
  · intro c hc
    have := splitOnP_piece_free (fun c => decide (c ∈ delims)) str.length str (le_refl _) t ht.1 c hc
    simpa using this

theorem maximalRuns_all_delims (str delims : Str) (h : ∀ c ∈ str, c ∈ delims) :
    maximalRuns str delims = [] := by
  induction str with
  | nil => exact maximalRuns_nil delims
  | cons c cs ih =>
    rw [maximalRuns_cons_delim _ _ _ (h c (List.mem_cons_self _ _))]
    exact ih (fun x hx => h x (List.mem_cons_of_mem _ hx))

theorem maximalRuns_maximal (delims : Str) :
    ∀ (n : Nat) (s : Str), s.length ≤ n → MaximalTokens delims s (maximalRuns s delims) := by
  intro n
  induction n with
  | zero =>
    intro s hs
    have : s = [] := List.length_eq_zero.mp (by omega)
    subst this
    rw [maximalRuns_nil]
    exact MaximalTokens.nil [] (fun c hc => absurd hc (List.not_mem_nil c))
  | succ n ih =>
    intro s hs
    have hsplit := List.takeWhile_append_dropWhile (fun c => decide (c ∈ delims)) s
    have hgap : ∀ c ∈ s.takeWhile (fun c => decide (c ∈ delims)), c ∈ delims := by
      intro c hc
      simpa using List.mem_takeWhile_imp hc
    rw [maximalRuns_dropWhile]
    cases hs1 : s.dropWhile (fun c => decide (c ∈ delims)) with
    | nil =>
      rw [hs1, List.append_nil] at hsplit
      rw [maximalRuns_nil, ← hsplit]
      exact MaximalTokens.nil _ hgap
    | cons c cs =>
      have hc : c ∉ delims := by
        have := List.head_dropWhile_not (fun c => decide (c ∈ delims)) s (by rw [hs1]; simp)
        simpa [hs1] using this
      rw [maximalRuns_cons_token delims c cs hc]
      have hsplit2 := List.takeWhile_append_dropWhile (fun c => !decide (c ∈ delims)) (c :: cs)
      have hne : (c :: cs).takeWhile (fun c => !decide (c ∈ delims)) ≠ [] := by
        simp [List.takeWhile, hc]
      have hfree : ∀ x ∈ (c :: cs).takeWhile (fun c => !decide (c ∈ delims)), x ∉ delims := by
        intro x hx
        simpa using List.mem_takeWhile_imp hx
      have hstop : ∀ x ∈ ((c :: cs).dropWhile (fun c => !decide (c ∈ delims))).head?,
          x ∈ delims := by
        intro x hx
        cases hr : (c :: cs).dropWhile (fun c => !decide (c ∈ delims)) with
        | nil => rw [hr] at hx; simp at hx
        | cons d r =>
          have := List.head_dropWhile_not (fun c => !decide (c ∈ delims)) (c :: cs)
            (by rw [hr]; simp)
          rw [hr] at hx
          simp only [List.head?_cons, Option.mem_def, Option.some.injEq] at hx
          subst hx
          simpa [hr] using this
      have hlen : ((c :: cs).dropWhile (fun c => !decide (c ∈ delims))).length ≤ n := by
        have h1 := congrArg List.length hsplit
        have h2 := congrArg List.length hsplit2
        rw [hs1, List.length_append] at h1
        rw [List.length_append] at h2
        have h3 := List.length_pos.mpr hne
        omega
      have hrec := ih _ hlen
      have hs : s = s.takeWhile (fun c => decide (c ∈ delims))
          ++ (c :: cs).takeWhile (fun c => !decide (c ∈ delims))
          ++ (c :: cs).dropWhile (fun c => !decide (c ∈ delims)) := by
        rw [List.append_assoc, hsplit2, ← hs1, hsplit]
      have hfin := MaximalTokens.cons _ _ _ _ hgap hne hfree hstop hrec
      rw [← hs] at hfin
      exact hfin

theorem tokenizeLoop_start (str delims : Str) (T0 : List Str) (hlen : str.length < npos)
    (fuel : Nat) (hfuel : str.length + 1 ≤ fuel) :
    tokenizeLoop str delims fuel (find_first_not_of str delims 0)
      (find_first_of str delims (find_first_not_of str delims 0)) T0
      = some (T0 ++ maximalRuns str delims) := by
  have := tokenizeLoop_from str delims hlen str.length 0 fuel T0 (by omega) (by omega) hfuel
  simpa using this

/-- C1: on a string shorter than `npos`, `tokenize` returns, and leaves in `tokens` the
previous content followed by the maximal non-empty delimiter-free substrings of `str` in
left-to-right order (`maximalRuns`, which decomposes `str` as `MaximalTokens` demands); any
larger bound on the iterations of the loop gives the same result; no token is empty or
contains a delimiter character; a string made only of delimiter characters (the empty string
included) adds nothing. -/
theorem tokenize_spec (str delims : Str) (T0 : List Str) (hlen : str.length < npos) :
    tokenize str T0 delims = some (T0 ++ maximalRuns str delims)
    ∧ (∀ fuel, str.length + 1 ≤ fuel →
        tokenizeLoop str delims fuel (find_first_not_of str delims 0)
          (find_first_of str delims (find_first_not_of str delims 0)) T0
          = some (T0 ++ maximalRuns str delims))
    ∧ MaximalTokens delims str (maximalRuns str delims)
    ∧ (∀ t ∈ maximalRuns str delims, t ≠ [] ∧ ∀ c ∈ t, c ∉ delims)
    ∧ ((∀ c ∈ str, c ∈ delims) → tokenize str T0 delims = some T0) := by
  have hmain : tokenize str T0 delims = some (T0 ++ maximalRuns str delims) :=
    tokenizeLoop_start str delims T0 hlen (str.length + 1) (le_refl _)
  refine ⟨hmain, fun fuel hf => tokenizeLoop_start str delims T0 hlen fuel hf,
    maximalRuns_maximal delims str.length str (le_refl _), maximalRuns_token str delims, ?_⟩
  intro h
  rw [hmain, maximalRuns_all_delims str delims h, List.append_nil]

/-- Witness of C1 on the line `a,b,,c=` with delimiters `,` and `=` and one token already in
the vector. -/
theorem tokenize_spec_witness :
    tokenize ['a', ',', 'b', ',', ',', 'c', '='] [['k']] [',', '=']
      = some [['k'], ['a'], ['b'], ['c']] :=
  (tokenize_spec ['a', ',', 'b', ',', ',', 'c', '='] [',', '='] [['k']] (by decide)).1.trans
    (by decide)

/-! ## Cut maps: cutValue, buildList, storeCuts -/

theorem mem_mapKeys_cons {Val : Type} (k k1 : Str) (v : Val) (rest : CutMap Val) :
    k ∈ mapKeys ((k1, v) :: rest) ↔ k = k1 ∨ k ∈ mapKeys rest := by
  unfold mapKeys
  rw [List.map_cons, List.mem_cons]

theorem mapFind_isSome_iff {Val : Type} (m : CutMap Val) (k : Str) :
    (mapFind m k).isSome = true ↔ k ∈ mapKeys m := by
  induction m with
  | nil =>
    constructor
    · intro h; exact absurd h (by simp [mapFind])
    · intro h; exact absurd h (List.not_mem_nil k)
  | cons e rest ih =>
    obtain ⟨k1, v⟩ := e
    rw [mem_mapKeys_cons]
    by_cases h : k1 = k
    · rw [mapFind, if_pos h]
      exact ⟨fun _ => Or.inl h.symm, fun _ => rfl⟩
    · rw [mapFind, if_neg h, ih]
      exact ⟨fun hh => Or.inr hh, fun hh => hh.resolve_left (fun e => h e.symm)⟩

theorem mapFind_eq_none_iff {Val : Type} (m : CutMap Val) (k : Str) :
    mapFind m k = none ↔ k ∉ mapKeys m := by
  rw [← mapFind_isSome_iff]
  cases mapFind m k with
  | none => exact ⟨fun _ h => Bool.noConfusion h, fun _ => rfl⟩
  | some w => exact ⟨fun h => absurd h (by intro h2; cases h2), fun h => absurd rfl h⟩

theorem mem_mapKeys_of_mem {Val : Type} (m : CutMap Val) (k : Str) (v : Val)
    (h : (k, v) ∈ m) : k ∈ mapKeys m :=
  List.mem_map.mpr ⟨(k, v), h, rfl⟩

theorem mapFind_eq_some_iff {Val : Type} (m : CutMap Val) (k : Str) (v : Val)
    (hm : (mapKeys m).Nodup) : mapFind m k = some v ↔ (k, v) ∈ m := by
  induction m with
  | nil =>
    constructor
    · intro h; cases h
    · intro h; exact absurd h (List.not_mem_nil _)
  | cons e rest ih =>
    obtain ⟨k1, v1⟩ := e
    have hnd : k1 ∉ mapKeys rest ∧ (mapKeys rest).Nodup := by
      unfold mapKeys at hm ⊢
      rw [List.map_cons, List.nodup_cons] at hm
      exact hm
    rw [List.mem_cons]
    by_cases h : k1 = k
    · subst h
      rw [mapFind, if_pos rfl]
      constructor
      · intro hv
        injection hv with hv
        exact Or.inl (by rw [hv])
      · intro hv
        rcases hv with hv | hv
        · injection hv with _ hv2
          rw [hv2]
        · exact absurd (mem_mapKeys_of_mem rest k1 v hv) hnd.1
    · rw [mapFind, if_neg h, ih hnd.2]
      constructor
      · exact fun hh => Or.inr hh
      · intro hh
        rcases hh with hh | hh
        · injection hh with hh1 _
          exact absurd hh1.symm h
        · exact hh

theorem mapInsert_eq {Val : Type} (m : CutMap Val) (k : Str) (v : Val) :
    mapInsert m k v = if k ∈ mapKeys m then m else m ++ [(k, v)] := by
  unfold mapInsert
  cases h : mapFind m k with
  | none =>
    have := (mapFind_eq_none_iff m k).mp h
    simp [this]
  | some w =>
    have : k ∈ mapKeys m := (mapFind_isSome_iff m k).mp (by simp [h])
    simp [this]

theorem mapFind_append_of_some {Val : Type} (m m2 : CutMap Val) (k : Str) (v : Val)
    (h : mapFind m k = some v) : mapFind (m ++ m2) k = some v := by
  induction m with
  | nil => simp [mapFind] at h
  | cons e rest ih =>
    obtain ⟨k1, v1⟩ := e
    by_cases hk : k1 = k
    · simpa [mapFind, hk] using h
    · simp only [mapFind, hk, if_false, List.cons_append] at h ⊢
      exact ih h

theorem processCutToken_keeps {Val : Type} (atof : Str → Val) (cuts : CutMap Val) (tok : Str) :
    (∀ e ∈ cuts, e ∈ processCutToken atof cuts tok) ∧
    (∀ k v, mapFind cuts k = some v → mapFind (processCutToken atof cuts tok) k = some v) := by
  unfold processCutToken
  cases maximalRuns tok ['='] with
  | nil => exact ⟨fun e he => he, fun k v h => h⟩
  | cons p0 R1 =>
    cases R1 with
    | nil => exact ⟨fun e he => he, fun k v h => h⟩
    | cons p1 R2 =>
      by_cases hk : p0 ∈ mapKeys cuts
      · simp only [hk, if_true]
        exact ⟨fun e he => he, fun k v h => h⟩
      · simp only [hk, if_false]
        exact ⟨fun e he => List.mem_append_left _ he,
          fun k v h => mapFind_append_of_some _ _ _ _ h⟩

theorem processCutTokens_keeps {Val : Type} (atof : Str → Val) (toks : List Str) :
    ∀ cuts : CutMap Val,
      (∀ e ∈ cuts, e ∈ processCutTokens atof cuts toks) ∧
      (∀ k v, mapFind cuts k = some v → mapFind (processCutTokens atof cuts toks) k = some v) := by
  induction toks with
  | nil => intro cuts; exact ⟨fun e he => he, fun k v h => h⟩
  | cons tok rest ih =>
    intro cuts
    have h1 := processCutToken_keeps atof cuts tok
    have h2 := ih (processCutToken atof cuts tok)
    exact ⟨fun e he => h2.1 e (h1.1 e he), fun k v h => h2.2 k v (h1.2 k v h)⟩

theorem tokenize_eq_runs (tok : Str) (hlen : tok.length < npos) :
    tokenize tok [] ['='] = some (maximalRuns tok ['=']) := by
  have := tokenizeLoop_start tok ['='] [] hlen (tok.length + 1) (le_refl _)
  simpa [tokenize] using this

theorem storeCutsLoop_eq {Val : Type} (atof : Str → Val) (m : Ptr) :
    ∀ (toks : List Str) (heap : Ptr → Option (CutMap Val)) (cuts : CutMap Val),
      (∀ t ∈ toks, t.length < npos) → heap m = some cuts →
      storeCutsLoop atof m toks heap
        = some (Function.update heap m (some (processCutTokens atof cuts toks))) := by
  intro toks
  induction toks with
  | nil =>
    intro heap cuts _ hm
    simp [storeCutsLoop, processCutTokens, ← hm]
  | cons tok rest ih =>
    intro heap cuts hlen hm
    have hrest : ∀ t ∈ rest, t.length < npos := fun t ht => hlen t (List.mem_cons_of_mem _ ht)
    rw [storeCutsLoop, tokenize_eq_runs tok (hlen tok (List.mem_cons_self _ _))]
    have hstep : processCutTokens atof cuts (tok :: rest)
        = processCutTokens atof (processCutToken atof cuts tok) rest := rfl
    rw [hstep]
    cases hR : maximalRuns tok ['='] with
    | nil =>
      simp only [List.length_nil, Nat.zero_lt_succ, if_true]
      rw [ih heap cuts hrest hm]
      simp [processCutToken, hR]
    | cons p0 R1 =>
      cases R1 with
      | nil =>
        simp only [List.length_singleton, Nat.one_lt_two, if_true]
        rw [ih heap cuts hrest hm]
        simp [processCutToken, hR]
      | cons p1 R2 =>
        have hnot : ¬ (p0 :: p1 :: R2).length < 2 := by simp
        simp only [hnot, if_false, hm]
        simp only [List.getElem?_cons_zero, List.getElem?_cons_succ]
        rw [ih (Function.update heap m (some (mapInsert cuts p0 (atof p1))))
          (mapInsert cuts p0 (atof p1)) hrest (by simp)]
        simp [processCutToken, hR, mapInsert_eq]


/-- C2: for a token list `key :: rest` whose first token is registered in `hmap` for a live
cut map `cuts`, `storeCuts` returns and leaves under that pointer the result of processing
`rest` in order, each token split on `=`: with at least two pieces `p0`, `p1` the entry
`p0 -> atof(p1)` is added unless `p0` is already a name (the earlier value is kept), with fewer
than two pieces (`x`, `x=`, `=3`) nothing is added. -/
theorem storeCuts_spec {Val : Type} (atof : Str → Val) (key : Str) (rest : List Str)
    (s : Store Val) (m : Ptr) (cuts : CutMap Val)
    (hkey : hmapFind s.hmap key = some m) (hm : s.heap m = some cuts)
    (hlen : ∀ t ∈ rest, t.length < npos) :
    (∃ s1, storeCuts atof (key :: rest) s = some s1 ∧ hmapFind s1.hmap key = some m ∧
      s1.heap m = some (processCutTokens atof cuts rest))
    ∧ (∀ (c : CutMap Val) (tok : Str), (maximalRuns tok ['=']).length < 2 →
        processCutToken atof c tok = c)
    ∧ (∀ (c : CutMap Val) (tok p0 p1 : Str) (R : List Str),
        maximalRuns tok ['='] = p0 :: p1 :: R →
        processCutToken atof c tok = mapInsert c p0 (atof p1)
        ∧ (∀ v, mapFind c p0 = some v → processCutToken atof c tok = c)
        ∧ (mapFind c p0 = none → processCutToken atof c tok = c ++ [(p0, atof p1)]))
    ∧ processCutToken atof cuts ['x'] = cuts
    ∧ processCutToken atof cuts ['x', '='] = cuts
    ∧ processCutToken atof cuts ['=', '3'] = cuts := by
  refine ⟨?_, ?_, ?_, ?_, ?_, ?_⟩
  · refine ⟨Store.mk s.hmap (Function.update s.heap m (some (processCutTokens atof cuts rest))),
      ?_, hkey, by simp⟩
    simp only [storeCuts, List.getElem?_cons_zero, hkey, List.drop_succ_cons, List.drop_zero]
    rw [storeCutsLoop_eq atof m rest s.heap cuts hlen hm]
  · intro c tok h
    unfold processCutToken
    cases hR : maximalRuns tok ['='] with
    | nil => rfl
    | cons p0 R1 =>
      cases R1 with
      | nil => rfl
      | cons p1 R2 => rw [hR] at h; exact absurd h (by simp)
  · intro c tok p0 p1 R hR
    have hI : processCutToken atof c tok = mapInsert c p0 (atof p1) := by
      rw [mapInsert_eq]
      simp only [processCutToken, hR]
    refine ⟨hI, ?_, ?_⟩
    · intro v hv
      rw [hI, mapInsert, hv]
    · intro hv
      rw [hI, mapInsert, hv]
  · rfl
  · rfl
  · rfl

/-- Witness of C2: the line `t x=12 x=3 y=5 z= =3 w` on a store whose map for `t` holds
`y -> 7` adds `x -> 12` only. -/
theorem storeCuts_spec_witness :
    ∃ s1, storeCuts decimalValue ([['t']] ++ sampleLine) sampleStore = some s1 ∧
      s1.heap 0 = some [(['y'], 7), (['x'], 12)] := by
  obtain ⟨s1, h1, _, h3⟩ := (storeCuts_spec decimalValue ['t'] sampleLine sampleStore 0
    [(['y'], 7)] (by decide) (by decide) (by decide)).1
  exact ⟨s1, h1, h3.trans (by decide)⟩

/-- C3: on a cut map (names unique), `cutValue` yields a value exactly when `cname` is a name
of the map, that value is the one stored under `cname`, a name that is absent gives the error
branch, and the map is the same afterwards. -/
theorem cutValue_spec {Val : Type} (m : CutMap Val) (cname : Str)
    (hm : (mapKeys m).Nodup) :
    ((cutValue m cname).value.isSome = true ↔ cname ∈ mapKeys m)
    ∧ (∀ v, (cutValue m cname).value = some v ↔ (cname, v) ∈ m)
    ∧ (cname ∉ mapKeys m → (cutValue m cname).value = none)
    ∧ (cutValue m cname).m = m := by
  refine ⟨mapFind_isSome_iff m cname, fun v => mapFind_eq_some_iff m cname v hm, ?_, rfl⟩
  intro h
  exact (mapFind_eq_none_iff m cname).mpr h

/-- Witness of C3: a map with the names `a` and `b`, looked up at `b` and at `c`. -/
theorem cutValue_spec_witness :
    (cutValue [(['a'], 2), (['b'], 5)] ['b']).value = some 5
    ∧ (cutValue [(['a'], 2), (['b'], 5)] ['c']).value = none :=
  ⟨((cutValue_spec [(['a'], 2), (['b'], 5)] ['b'] (by decide)).2.1 5).mpr (by decide),
   (cutValue_spec [(['a'], 2), (['b'], 5)] ['c'] (by decide)).2.2.1 (by decide)⟩

theorem foldl_push_eq (rest : List Str) : ∀ L0 : List Str,
    rest.foldl (fun acc tok => acc ++ [tok]) L0 = L0 ++ rest := by
  induction rest with
  | nil => intro L0; simp
  | cons t r ih => intro L0; simp [ih]

/-- C9: on a non-empty token list `buildList` returns and leaves `list` equal to its previous
content followed by every token but the first, in order, so its size grows by
`tokens.size() - 1`; on an empty token list the iteration starts outside the vector. -/
theorem buildList_spec (tokens L0 : List Str) (h : tokens ≠ []) :
    buildList tokens L0 = some (L0 ++ tokens.tail)
    ∧ (L0 ++ tokens.tail).length = L0.length + (tokens.length - 1)
    ∧ L0 <+: L0 ++ tokens.tail
    ∧ buildList [] L0 = none := by
  cases tokens with
  | nil => exact absurd rfl h
  | cons t rest =>
    refine ⟨?_, by simp, List.prefix_append _ _, rfl⟩
    simp [buildList, foldl_push_eq]

/-- Witness of C9: the keyword `k` followed by `a` and `b`, appended to a list holding `z`. -/
theorem buildList_spec_witness :
    buildList [['k'], ['a'], ['b']] [['z']] = some [['z'], ['a'], ['b']] :=
  (buildList_spec [['k'], ['a'], ['b']] [['z']] (by decide)).1

/-- C7 as amended: `storeCuts` never changes `hmap`; a first token that is not registered
leaves the whole store as it is; a first token registered for a live cut map at pointer `m`
leaves every map at another pointer as it is (so every map registered under a different key
that is a different object), and keeps every entry the named map held, with its value. -/
theorem storeCuts_frame {Val : Type} (atof : Str → Val) (key : Str) (rest : List Str)
    (s : Store Val) (hlen : ∀ t ∈ rest, t.length < npos) :
    (hmapFind s.hmap key = none → storeCuts atof (key :: rest) s = some s)
    ∧ (∀ (m : Ptr) (cuts : CutMap Val), hmapFind s.hmap key = some m → s.heap m = some cuts →
        ∃ s1 cuts1, storeCuts atof (key :: rest) s = some s1
          ∧ s1.hmap = s.hmap
          ∧ (∀ q, q ≠ m → s1.heap q = s.heap q)
          ∧ (∀ key2 q, key2 ≠ key → hmapFind s.hmap key2 = some q → q ≠ m →
              s1.heap q = s.heap q)
          ∧ s1.heap m = some cuts1
          ∧ (∀ e ∈ cuts, e ∈ cuts1)
          ∧ (∀ k v, mapFind cuts k = some v → mapFind cuts1 k = some v)) := by
  constructor
  · intro hk
    simp [storeCuts, hk]
  · intro m cuts hk hm
    have hframe : ∀ q, q ≠ m →
        Function.update s.heap m (some (processCutTokens atof cuts rest)) q = s.heap q :=
      fun q hq => Function.update_noteq hq _ _
    refine ⟨Store.mk s.hmap (Function.update s.heap m (some (processCutTokens atof cuts rest))),
      processCutTokens atof cuts rest, ?_, rfl, hframe, fun _ q _ _ hq => hframe q hq,
      by simp, (processCutTokens_keeps atof rest cuts).1, (processCutTokens_keeps atof rest cuts).2⟩
    simp only [storeCuts, List.getElem?_cons_zero, hk, List.drop_succ_cons, List.drop_zero]
    rw [storeCutsLoop_eq atof m rest s.heap cuts hlen hm]

/-- Witness of C7 as amended: the line `t x=12 ...` on the sample store leaves the map
registered for `p` (pointer 1) as it was and keeps the entry `y -> 7` of the map of `t`. -/
theorem storeCuts_frame_witness :
    ∃ s1 cuts1, storeCuts decimalValue ([['t']] ++ sampleLine) sampleStore = some s1
      ∧ s1.heap 1 = sampleStore.heap 1
      ∧ s1.heap 0 = some cuts1 ∧ mapFind cuts1 ['y'] = some 7 := by
  obtain ⟨s1, cuts1, h1, _, h3, _, h5, _, h7⟩ :=
    (storeCuts_frame decimalValue ['t'] sampleLine sampleStore (by decide)).2 0 [(['y'], 7)]
      (by decide) (by decide)
  exact ⟨s1, cuts1, h1, h3 1 (by decide), h5, h7 ['y'] 7 (by decide)⟩

/-- C7 as stated fails when two keys of `hmap` are registered for the same cut map: the line
`a x=1` adds an entry to the map registered under the different key `b`. -/
theorem storeCuts_alias_counterexample :
    ¬ (∀ s1, storeCuts decimalValue [['a'], ['x', '=', '1']] aliasStore = some s1 →
        ∀ key2 q, key2 ≠ ['a'] → hmapFind aliasStore.hmap key2 = some q →
          s1.heap q = aliasStore.heap q) := by
  intro h
  have hs : storeCuts decimalValue [['a'], ['x', '=', '1']] aliasStore
      = some (Store.mk aliasStore.hmap
          (Function.update aliasStore.heap 0
            (some (processCutTokens decimalValue [] [['x', '=', '1']])))) := by
    have hk : hmapFind aliasStore.hmap ['a'] = some 0 := by decide
    simp only [storeCuts, List.getElem?_cons_zero, hk, List.drop_succ_cons, List.drop_zero]
    rw [storeCutsLoop_eq decimalValue 0 [['x', '=', '1']] aliasStore.heap [] (by decide)
      (by decide)]
  have h2 := h _ hs ['b'] 0 (by decide) (by decide)
  simp only [Function.update_same] at h2
  exact absurd h2 (by decide)


/-! ## fillProfile -/

theorem modify_eq_set {β : Type} (f : β → β) :
    ∀ (l : List β) (i : Nat) (x : β), l[i]? = some x → l.modify f i = l.set i (f x) := by
  intro l
  induction l with
  | nil => intro i x h; simp at h
  | cons a r ih =>
    intro i x h
    cases i with
    | zero =>
      simp only [List.getElem?_cons_zero, Option.some.injEq] at h
      subst h
      rfl
    | succ j =>
      simp only [List.getElem?_cons_succ] at h
      simp only [List.modify_succ_cons, List.set_cons_succ, ih j x h]

theorem getProfile_eq_some_iff {P O : Type} (dir : List (TObject P O)) (hname : Str) (i : Nat) :
    getProfile dir hname = some i ↔
      FindObject dir hname = some i ∧ ∃ n h, dir[i]? = some (TObject.mk n (Sum.inl h)) := by
  unfold getProfile
  cases hF : FindObject dir hname with
  | none => simp
  | some j =>
    simp only [Option.some.injEq]
    cases hj : dir[j]? with
    | none =>
      constructor
      · intro e; cases e
      · rintro ⟨e, n, h, hi⟩
        subst e; rw [hj] at hi; cases hi
    | some obj =>
      obtain ⟨n, b⟩ := obj
      cases b with
      | inl h =>
        simp only [Option.some.injEq]
        constructor
        · intro e; subst e; exact ⟨rfl, n, h, hj⟩
        · intro e; exact e.1
      | inr o =>
        constructor
        · intro e; cases e
        · rintro ⟨e, n2, h, hi⟩
          subst e; rw [hj] at hi; cases hi

/-- C4: `fillProfile` returns true exactly when the object the directory finds under `hname`
is a profile histogram; it then applies one `Fill(xvalue, yvalue, w)` to that object and
leaves every other object as it is; when it returns false the directory is as before; the
`std::string` overload is the `const char*` overload on the C string of the name, which is
the name itself when it holds no NUL character. -/
theorem fillProfile_spec {P O X W : Type} (Fill : P → X → X → W → P)
    (dir : List (TObject P O)) (hname : Str) (xvalue yvalue : X) (w : W) :
    ((fillProfile Fill dir hname xvalue yvalue w).1 = true ↔
      ∃ i n h, FindObject dir hname = some i ∧ dir[i]? = some (TObject.mk n (Sum.inl h)))
    ∧ (∀ i n h, FindObject dir hname = some i → dir[i]? = some (TObject.mk n (Sum.inl h)) →
        fillProfile Fill dir hname xvalue yvalue w
          = (true, dir.set i (TObject.mk n (Sum.inl (Fill h xvalue yvalue w))))
        ∧ ∀ j, j ≠ i → (fillProfile Fill dir hname xvalue yvalue w).2[j]? = dir[j]?)
    ∧ ((fillProfile Fill dir hname xvalue yvalue w).1 = false →
        (fillProfile Fill dir hname xvalue yvalue w).2 = dir)
    ∧ fillProfileString Fill dir hname xvalue yvalue w
        = fillProfile Fill dir (c_str hname) xvalue yvalue w
    ∧ (Char.ofNat 0 ∉ hname →
        fillProfileString Fill dir hname xvalue yvalue w
          = fillProfile Fill dir hname xvalue yvalue w) := by
  have hset : ∀ i n h, FindObject dir hname = some i →
      dir[i]? = some (TObject.mk n (Sum.inl h)) →
      fillProfile Fill dir hname xvalue yvalue w
        = (true, dir.set i (TObject.mk n (Sum.inl (Fill h xvalue yvalue w)))) := by
    intro i n h hF hi
    have hg : getProfile dir hname = some i :=
      (getProfile_eq_some_iff dir hname i).mpr ⟨hF, n, h, hi⟩
    simp only [fillProfile, hg]
    rw [modify_eq_set _ dir i _ hi]
  refine ⟨?_, ?_, ?_, rfl, ?_⟩
  · constructor
    · intro ht
      cases hg : getProfile dir hname with
      | none => simp [fillProfile, hg] at ht
      | some i =>
        obtain ⟨hF, n, h, hi⟩ := (getProfile_eq_some_iff dir hname i).mp hg
        exact ⟨i, n, h, hF, hi⟩
    · rintro ⟨i, n, h, hF, hi⟩
      rw [hset i n h hF hi]
  · intro i n h hF hi
    refine ⟨hset i n h hF hi, ?_⟩
    intro j hj
    rw [hset i n h hF hi]
    exact List.getElem?_set_ne (fun e => hj e.symm)
  · intro hf
    cases hg : getProfile dir hname with
    | none => simp [fillProfile, hg]
    | some i => simp [fillProfile, hg] at hf
  · intro h0
    have : c_str hname = hname := by
      unfold c_str
      rw [List.takeWhile_eq_self_iff]
      intro c hc
      simp only [ne_eq, decide_not, Bool.not_eq_true', decide_eq_false_iff_not]
      intro e; subst e; exact h0 hc
    simp only [fillProfileString, this]

end AnaUtil

/-! ## PhiInfoComparator -/

/-- C5: `PhiInfoComparator` holds exactly when the first `dmass` is below the second; it is
irreflexive, asymmetric and transitive, its incomparability relation is transitive (a strict
weak ordering), candidates with equal `dmass` are equivalent whatever their other fields, a
list in which no element compares below its predecessor has non-decreasing `dmass`, and so
has the permutation of any list that a merge sort with the comparator produces. -/
theorem PhiInfoComparator_strict_weak {α : Type} [LinearOrder α] :
    (∀ a b : PhiInfo α, PhiInfoComparator a b = true ↔ a.dmass < b.dmass)
    ∧ (∀ a : PhiInfo α, PhiInfoComparator a a = false)
    ∧ (∀ a b : PhiInfo α, PhiInfoComparator a b = true → PhiInfoComparator b a = false)
    ∧ (∀ a b c : PhiInfo α, PhiInfoComparator a b = true → PhiInfoComparator b c = true →
        PhiInfoComparator a c = true)
    ∧ (∀ a b c : PhiInfo α,
        PhiInfoComparator a b = false → PhiInfoComparator b a = false →
        PhiInfoComparator b c = false → PhiInfoComparator c b = false →
        PhiInfoComparator a c = false ∧ PhiInfoComparator c a = false)
    ∧ (∀ a b : PhiInfo α, a.dmass = b.dmass →
        PhiInfoComparator a b = false ∧ PhiInfoComparator b a = false)
    ∧ (∀ l : List (PhiInfo α), List.Chain' (fun x y => PhiInfoComparator y x = false) l →
        List.Pairwise (fun x y => x.dmass ≤ y.dmass) l)
    ∧ (∀ l : List (PhiInfo α),
        (l.mergeSort (fun x y => !PhiInfoComparator y x)).Perm l
        ∧ List.Pairwise (fun x y => x.dmass ≤ y.dmass)
            (l.mergeSort (fun x y => !PhiInfoComparator y x))) := by
  have hiff : ∀ a b : PhiInfo α, PhiInfoComparator a b = true ↔ a.dmass < b.dmass := by
    intro a b; simp [PhiInfoComparator]
  have hfalse : ∀ a b : PhiInfo α, PhiInfoComparator a b = false ↔ b.dmass ≤ a.dmass := by
    intro a b; simp [PhiInfoComparator]
  refine ⟨hiff, ?_, ?_, ?_, ?_, ?_, ?_, ?_⟩
  · intro a; rw [hfalse]
  · intro a b h; rw [hfalse]; exact le_of_lt ((hiff a b).mp h)
  · intro a b c h1 h2
    exact (hiff a c).mpr (lt_trans ((hiff a b).mp h1) ((hiff b c).mp h2))
  · intro a b c h1 h2 h3 h4
    rw [hfalse] at h1 h2 h3 h4 ⊢
    rw [hfalse]
    exact ⟨le_trans h3 h1, le_trans h2 h4⟩
  · intro a b h
    rw [hfalse, hfalse, h]
    exact ⟨le_refl _, le_refl _⟩
  · intro l hl
    have hl2 : List.Chain' (fun x y : PhiInfo α => x.dmass ≤ y.dmass) l :=
      hl.imp (fun {x y} h => (hfalse y x).mp h)
    haveI : IsTrans (PhiInfo α) (fun x y => x.dmass ≤ y.dmass) :=
      ⟨fun _ _ _ h1 h2 => le_trans h1 h2⟩
    exact List.chain'_iff_pairwise.mp hl2
  · intro l
    refine ⟨List.mergeSort_perm l _, ?_⟩
    have hle : ∀ x y : PhiInfo α, (!PhiInfoComparator y x) = true ↔ x.dmass ≤ y.dmass := by
      intro x y; simp [PhiInfoComparator]
    have hs := @List.sorted_mergeSort (PhiInfo α) (fun x y => !PhiInfoComparator y x)
      (fun a b c h1 h2 => (hle a c).mpr (le_trans ((hle a b).mp h1) ((hle b c).mp h2)))
      (fun a b => by
        rcases le_total a.dmass b.dmass with h | h
        · simp [(hle a b).mpr h]
        · simp [(hle b a).mpr h])
      l
    exact hs.imp (fun {x y} h => (hle x y).mp h)

namespace AnaUtil

/-! ## deltaPhi -/

section DeltaPhiProofs

variable {α : Type} [LinearOrderedField α]

theorem deltaPhiDown_spec (pi : α) :
    ∀ (n : Nat) (d : α) (fuel : Nat), d ≤ pi + 2 * pi * n → n + 1 ≤ fuel →
      ∃ j : Nat, deltaPhiDown pi fuel d = some (d - 2 * pi * j) ∧ d - 2 * pi * j ≤ pi ∧
        (j = 0 ∨ -pi < d - 2 * pi * j) := by
  intro n
  induction n with
  | zero =>
    intro d fuel hd hf
    obtain ⟨f, rfl⟩ : ∃ f, fuel = f + 1 := ⟨fuel - 1, by omega⟩
    have hd2 : d ≤ pi := by simpa using hd
    refine ⟨0, ?_, by simpa using hd2, Or.inl rfl⟩
    simp [deltaPhiDown, not_lt.mpr hd2]
  | succ n ih =>
    intro d fuel hd hf
    obtain ⟨f, rfl⟩ : ∃ f, fuel = f + 1 := ⟨fuel - 1, by omega⟩
    by_cases hgt : d > pi
    · have hd2 : d - 2 * pi ≤ pi + 2 * pi * n := by
        push_cast at hd
        linarith
      obtain ⟨j, hj1, hj2, hj3⟩ := ih (d - 2 * pi) f hd2 (by omega)
      refine ⟨j + 1, ?_, ?_, Or.inr ?_⟩
      · rw [deltaPhiDown, if_pos hgt, hj1]
        congr 1
        push_cast
        ring
      · push_cast
        linarith
      · rcases hj3 with h0 | h1
        · subst h0
          push_cast
          simp only [zero_add, mul_one]
          linarith
        · push_cast
          linarith
    · refine ⟨0, ?_, by simpa using not_lt.mp hgt, Or.inl rfl⟩
      simp [deltaPhiDown, hgt]

theorem deltaPhiUp_spec (pi : α) :
    ∀ (n : Nat) (d : α) (fuel : Nat), -pi - 2 * pi * n < d → n + 1 ≤ fuel →
      ∃ j : Nat, deltaPhiUp pi fuel d = some (d + 2 * pi * j) ∧ -pi < d + 2 * pi * j ∧
        (j = 0 ∨ d + 2 * pi * j ≤ pi) := by
  intro n
  induction n with
  | zero =>
    intro d fuel hd hf
    obtain ⟨f, rfl⟩ : ∃ f, fuel = f + 1 := ⟨fuel - 1, by omega⟩
    have hd2 : -pi < d := by simpa using hd
    refine ⟨0, ?_, by simpa using hd2, Or.inl rfl⟩
    simp [deltaPhiUp, not_le.mpr hd2]
  | succ n ih =>
    intro d fuel hd hf
    obtain ⟨f, rfl⟩ : ∃ f, fuel = f + 1 := ⟨fuel - 1, by omega⟩
    by_cases hle : d ≤ -pi
    · have hd2 : -pi - 2 * pi * n < d + 2 * pi := by
        push_cast at hd
        linarith
      obtain ⟨j, hj1, hj2, hj3⟩ := ih (d + 2 * pi) f hd2 (by omega)
      refine ⟨j + 1, ?_, ?_, Or.inr ?_⟩
      · rw [deltaPhiUp, if_pos hle, hj1]
        congr 1
        push_cast
        ring
      · push_cast
        linarith
      · rcases hj3 with h0 | h1
        · subst h0
          push_cast
          simp only [zero_add, mul_one]
          linarith
        · push_cast
          linarith
    · refine ⟨0, ?_, by simpa using not_le.mp hle, Or.inl rfl⟩
      simp [deltaPhiUp, hle]

theorem deltaPhiDown_mono (pi : α) :
    ∀ (fuel : Nat) (d r : α), deltaPhiDown pi fuel d = some r →
      ∀ fuel2, fuel ≤ fuel2 → deltaPhiDown pi fuel2 d = some r := by
  intro fuel
  induction fuel with
  | zero => intro d r h; simp [deltaPhiDown] at h
  | succ f ih =>
    intro d r h fuel2 hf
    obtain ⟨g, rfl⟩ : ∃ g, fuel2 = g + 1 := ⟨fuel2 - 1, by omega⟩
    rw [deltaPhiDown] at h ⊢
    by_cases hgt : d > pi
    · rw [if_pos hgt] at h ⊢
      exact ih _ _ h g (by omega)
    · rw [if_neg hgt] at h ⊢
      exact h

theorem deltaPhiUp_mono (pi : α) :
    ∀ (fuel : Nat) (d r : α), deltaPhiUp pi fuel d = some r →
      ∀ fuel2, fuel ≤ fuel2 → deltaPhiUp pi fuel2 d = some r := by
  intro fuel
  induction fuel with
  | zero => intro d r h; simp [deltaPhiUp] at h
  | succ f ih =>
    intro d r h fuel2 hf
    obtain ⟨g, rfl⟩ : ∃ g, fuel2 = g + 1 := ⟨fuel2 - 1, by omega⟩
    rw [deltaPhiUp] at h ⊢
    by_cases hle : d ≤ -pi
    · rw [if_pos hle] at h ⊢
      exact ih _ _ h g (by omega)
    · rw [if_neg hle] at h ⊢
      exact h

theorem deltaPhi_in_range (pi : α) (phia phib : α) (h1 : -pi < phia - phib)
    (h2 : phia - phib ≤ pi) (fuel : Nat) (hf : 1 ≤ fuel) :
    deltaPhi pi fuel phia phib = some (phia - phib) := by
  obtain ⟨f, rfl⟩ : ∃ f, fuel = f + 1 := ⟨fuel - 1, by omega⟩
  simp [deltaPhi, deltaPhiDown, deltaPhiUp, not_lt.mpr h2, not_le.mpr h1]

theorem deltaPhi_terminates [Archimedean α] (pi : α) (hpi : 0 < pi) (phia phib : α) :
    ∃ (r : α) (k : Int), -pi < r ∧ r ≤ pi ∧ r = (phia - phib) + 2 * pi * k ∧
      ∃ N : Nat, ∀ fuel, N ≤ fuel → deltaPhi pi fuel phia phib = some r := by
  have h2pi : 0 < 2 * pi := by linarith
  obtain ⟨n1, hn1⟩ := exists_nat_gt ((phia - phib) / (2 * pi))
  have hb1 : phia - phib ≤ pi + 2 * pi * n1 := by
    have := (div_lt_iff₀ h2pi).mp hn1
    linarith
  obtain ⟨j1, hj1a, hj1b, _⟩ := deltaPhiDown_spec pi n1 (phia - phib) (n1 + 1) hb1 (le_refl _)
  obtain ⟨n2, hn2⟩ := exists_nat_gt ((-(phia - phib - 2 * pi * j1)) / (2 * pi))
  have hb2 : -pi - 2 * pi * n2 < phia - phib - 2 * pi * j1 := by
    have := (div_lt_iff₀ h2pi).mp hn2
    linarith
  obtain ⟨j2, hj2a, hj2b, hj2c⟩ :=
    deltaPhiUp_spec pi n2 (phia - phib - 2 * pi * j1) (n2 + 1) hb2 (le_refl _)
  refine ⟨phia - phib - 2 * pi * j1 + 2 * pi * j2, (j2 : Int) - (j1 : Int), hj2b, ?_, ?_,
    max n1 n2 + 1, ?_⟩
  · rcases hj2c with h0 | h1
    · subst h0
      simpa using hj1b
    · exact h1
  · push_cast
    ring
  · intro fuel hf
    have hf1 : n1 + 1 ≤ fuel := by have := le_max_left n1 n2; omega
    have hf2 : n2 + 1 ≤ fuel := by have := le_max_right n1 n2; omega
    simp only [deltaPhi, deltaPhiDown_mono pi (n1 + 1) _ _ hj1a fuel hf1,
      deltaPhiUp_mono pi (n2 + 1) _ _ hj2a fuel hf2]

end DeltaPhiProofs

/-- C8: over the real numbers, with `pi` the number pi, `deltaPhi` returns (every large enough
bound on the loops gives the same value) a value `r` with `-pi < r <= pi` that differs from
`phia - phib` by an integer multiple of `2 pi`; when `phia - phib` already lies in
`(-pi, pi]` the value is `phia - phib` itself. -/
theorem deltaPhi_real (phia phib : ℝ) :
    (∃ (r : ℝ) (k : Int), -Real.pi < r ∧ r ≤ Real.pi ∧ r = (phia - phib) + 2 * Real.pi * k ∧
      ∃ N : Nat, ∀ fuel, N ≤ fuel → deltaPhi Real.pi fuel phia phib = some r)
    ∧ (-Real.pi < phia - phib → phia - phib ≤ Real.pi →
        ∀ fuel, 1 ≤ fuel → deltaPhi Real.pi fuel phia phib = some (phia - phib)) :=
  ⟨deltaPhi_terminates Real.pi Real.pi_pos phia phib,
   fun h1 h2 fuel hf => deltaPhi_in_range Real.pi phia phib h1 h2 fuel hf⟩

end AnaUtil

namespace AnaUtil

/-! ## bit_print -/

theorem iterate_shl1 (k v : Nat) : Nat.iterate shl1 k v = (v * 2 ^ k) % 2 ^ 32 % 2 ^ 32 ∨
    Nat.iterate shl1 k v = v ∧ k = 0 := by
  induction k generalizing v with
  | zero => exact Or.inr ⟨rfl, rfl⟩
  | succ k ih =>
    left
    rw [Function.iterate_succ_apply]
    rcases ih (shl1 v) with h | ⟨h, hk⟩
    · rw [h]
      unfold shl1
      rw [Nat.mod_mod, Nat.mod_mod, Nat.mod_mul_mod, pow_succ]
      congr 1
      ring
    · rw [h, hk]
      unfold shl1
      simp

theorem digit_iterate (k v : Nat) (hv : v < 2 ^ 32) :
    ((Nat.iterate shl1 k v) &&& mask = 0) ↔ ¬ (k ≤ 31 ∧ v.testBit (31 - k) = true) := by
  have hval : Nat.iterate shl1 k v = (2 ^ k * v) % 2 ^ 32 := by
    rcases iterate_shl1 k v with h | ⟨h, hk⟩
    · rw [h, Nat.mod_mod, Nat.mul_comm]
    · rw [h, hk, pow_zero, one_mul, Nat.mod_eq_of_lt hv]
  rw [hval, mask, Nat.and_two_pow, Nat.testBit_mod_two_pow, Nat.testBit_mul_pow_two]
  by_cases hk : k ≤ 31
  · cases hb : v.testBit (31 - k) <;> simp [hk, hb]
  · simp [hk]

theorem binaryDigits_append (a b : List Char) :
    binaryDigits (a ++ b) = binaryDigits a ++ binaryDigits b := by
  simp [binaryDigits]

theorem bit_print_fold (pos : Int) :
    ∀ (n s : Nat) (st : Nat × List Char),
      binaryDigits ((List.range' s n).foldl (bit_print_step pos) st).2
        = binaryDigits st.2 ++
          (List.range n).map (fun t => if (Nat.iterate shl1 t st.1) &&& mask = 0 then '0' else '1') := by
  intro n
  induction n with
  | zero => intro s st; simp
  | succ n ih =>
    intro s st
    rw [List.range'_succ, List.foldl_cons, ih, List.range_succ_eq_map, List.map_cons,
      List.map_map]
    have h1 : (bit_print_step pos st s).1 = shl1 st.1 := by
      by_cases hc : Int.tmod (INT_BIT - pos + (s : Int)) CHAR_BIT = 0 ∧ (s : Int) ≠ INT_BIT
      · simp only [bit_print_step]; rw [if_pos hc]
      · simp only [bit_print_step]; rw [if_neg hc]
    have h2 : binaryDigits (bit_print_step pos st s).2
        = binaryDigits st.2 ++ [if st.1 &&& mask = 0 then '0' else '1'] := by
      have hsp : binaryDigits [' '] = [] := by decide
      have hd : binaryDigits [if st.1 &&& mask = 0 then '0' else '1']
          = [if st.1 &&& mask = 0 then '0' else '1'] := by
        by_cases hz : st.1 &&& mask = 0
        · rw [if_pos hz]; decide
        · rw [if_neg hz]; decide
      by_cases hc : Int.tmod (INT_BIT - pos + (s : Int)) CHAR_BIT = 0 ∧ (s : Int) ≠ INT_BIT
      · simp only [bit_print_step]; rw [if_pos hc]
        simp only [binaryDigits_append, hsp, hd, List.append_nil]
      · simp only [bit_print_step]; rw [if_neg hc]
        simp only [binaryDigits_append, hd]
    rw [h1, h2, List.append_assoc]
    rfl

/-- The digits `bit_print` writes for any 32-bit `value` and any `pos`: bit `31 - t` of the
value shifted up by `INT_BIT - pos` places for `t = 0 .. pos - 1`, zero beyond the word. -/
theorem bit_print_digits (value : Nat) (pos : Int) (os : List Char) (hv : value < 2 ^ 32) :
    binaryDigits (bit_print value pos os) = binaryDigits os ++
      (List.range pos.toNat).map (fun t =>
        if (32 - pos).toNat + t ≤ 31 ∧ value.testBit (31 - ((32 - pos).toNat + t)) = true
        then '1' else '0') := by
  unfold bit_print
  simp only [binaryDigits_append, bit_print_fold]
  have hnl : binaryDigits ['\n'] = [] := by decide
  have hsp : binaryDigits [' '] = [] := by decide
  rw [hnl, hsp, List.append_nil, List.append_nil]
  congr 1
  apply List.map_congr_left
  intro t _
  rw [← Function.iterate_add_apply, Nat.add_comm t]
  have hIB : (INT_BIT - pos).toNat = (32 - pos).toNat := rfl
  rw [hIB]
  by_cases hd : (Nat.iterate shl1 ((32 - pos).toNat + t) value) &&& mask = 0
  · rw [if_pos hd, if_neg ((digit_iterate _ _ hv).mp hd)]
  · rw [if_neg hd, if_pos (not_not.mp (fun h => hd ((digit_iterate _ _ hv).mpr h)))]

/-- For `0 <= pos <= 32` the digits written are the `pos` low-order bits of the value, bit
`pos - 1` first; for a negative `pos` no digit is written. -/
theorem bit_print_digits_in_range (value : Nat) (pos : Int) (os : List Char)
    (hv : value < 2 ^ 32) (hpos : pos ≤ 32) :
    binaryDigits (bit_print value pos os) = binaryDigits os ++ lowBits pos.toNat value := by
  rw [bit_print_digits value pos os hv]
  congr 1
  unfold lowBits
  rw [List.range_eq_range' pos.toNat, List.reverse_range', List.map_map, ← List.range_eq_range']
  apply List.map_congr_left
  intro t ht
  have ht2 : t < pos.toNat := List.mem_range.mp ht
  have h1 : (32 - pos).toNat + t ≤ 31 := by omega
  have h2 : 31 - ((32 - pos).toNat + t) = 0 + pos.toNat - 1 - t := by omega
  simp only [Function.comp, h1, true_and, h2]

/-- For `pos > 32` the digits written are the 32 bits of the value followed by `pos - 32`
zeros. -/
theorem bit_print_digits_above (value : Nat) (pos : Int) (os : List Char)
    (hv : value < 2 ^ 32) (hpos : 32 < pos) :
    binaryDigits (bit_print value pos os)
      = binaryDigits os ++ lowBits 32 value ++ List.replicate (pos.toNat - 32) '0' := by
  rw [bit_print_digits value pos os hv]
  have hk : (32 - pos).toNat = 0 := by omega
  have hn : pos.toNat = 32 + (pos.toNat - 32) := by omega
  rw [hk, List.append_assoc]
  congr 1
  rw [hn, List.range_add, List.map_append, List.map_map]
  congr 1
  · have := bit_print_digits_in_range value 32 [] hv (le_refl _)
    rw [bit_print_digits value 32 [] hv] at this
    simpa using this
  · rw [List.eq_replicate_iff]
    refine ⟨by simp, ?_⟩
    intro c hc
    rw [List.mem_map] at hc
    obtain ⟨t, _, rfl⟩ := hc
    have : ¬ (0 + (32 + t) ≤ 31 ∧ value.testBit (31 - (0 + (32 + t))) = true) :=
      fun h => absurd h.1 (by omega)
    simp only [Function.comp, if_neg this]

/-- C10: at `value = 1`, `pos = 33` the digits written are 33 in number, the 32 bits of the
value followed by one more `0`, while the 32 low-order bits of the value are the 32 digits
`0...01`: a `pos` above the word width is not clamped. -/
theorem bit_print_no_clamp :
    binaryDigits (bit_print 1 33 []) = List.replicate 31 '0' ++ ['1', '0']
    ∧ (binaryDigits (bit_print 1 33 [])).length = 33
    ∧ lowBits (min (max (33 : Int) 0) 32).toNat 1 = List.replicate 31 '0' ++ ['1']
    ∧ binaryDigits (bit_print 1 33 []) ≠ lowBits (min (max (33 : Int) 0) 32).toNat 1 := by
  decide

end AnaUtil

namespace BsAnalysis

open AnaUtil

/-! ## findPhiCandidates -/

theorem phiPair_some {Track α : Type} [LinearOrderedField α] (sel : PhiSelection Track α)
    (trkCutMap phiCutMap : CutMap α) (window : α) (trackList : List Track) (i j : Nat)
    (info : PhiInfo α) (h : phiPair sel trkCutMap phiCutMap window trackList i j = some info) :
    ∃ ti tj, trackList[i]? = some ti ∧ trackList[j]? = some tj
      ∧ |sel.M (sel.phiLV ti tj) - phi_polemass| ≤ window
      ∧ info = makePhiInfo sel i j ti tj := by
  unfold phiPair at h
  cases hi : trackList[i]? with
  | none => rw [hi] at h; cases h
  | some ti =>
    cases hj : trackList[j]? with
    | none => rw [hi, hj] at h; cases h
    | some tj =>
      rw [hi, hj] at h
      simp only at h
      split at h
      · next hc =>
        injection h with h
        exact ⟨ti, tj, rfl, rfl, hc.2.2.2, h.symm⟩
      · cases h

/-- C6: when the phi cut map holds the mass-window cut, `findPhiCandidates` returns, keeps the
previous content of `phiList`, and every candidate it appends records two valid and different
positions `indx1 < indx2` of `trackList`, the tracks there having a combined invariant mass
within the window of `phi_polemass`, and `dmass` being that mass minus `phi_polemass`. -/
theorem findPhiCandidates_spec {Track α : Type} [LinearOrderedField α]
    (sel : PhiSelection Track α) (trkCutMap phiCutMap : CutMap α) (trackList : List Track)
    (phiList : List (PhiInfo α)) (window : α)
    (hw : (cutValue phiCutMap sel.massWindowCut).value = some window) :
    ∃ added, findPhiCandidates sel trkCutMap phiCutMap trackList phiList
        = some (phiList ++ added)
      ∧ ∀ info ∈ added, ∃ (i j : Nat) (ti tj : Track),
          info.indx1 = (i : Int) ∧ info.indx2 = (j : Int)
          ∧ i < j ∧ j < trackList.length
          ∧ trackList[i]? = some ti ∧ trackList[j]? = some tj
          ∧ |sel.M (sel.phiLV ti tj) - phi_polemass| ≤ window
          ∧ info.dmass = sel.M (sel.phiLV ti tj) - phi_polemass := by
  refine ⟨phiPairs sel trkCutMap phiCutMap window trackList, ?_, ?_⟩
  · simp only [findPhiCandidates, hw]
  · intro info hinfo
    unfold phiPairs at hinfo
    rw [List.mem_flatMap] at hinfo
    obtain ⟨i, hi, hmem⟩ := hinfo
    rw [List.mem_filterMap] at hmem
    obtain ⟨j, hj, hpair⟩ := hmem
    rw [List.mem_range'_1] at hj
    have hi2 : i < trackList.length := List.mem_range.mp hi
    obtain ⟨ti, tj, hti, htj, hwin, hinf⟩ :=
      phiPair_some sel trkCutMap phiCutMap window trackList i j info hpair
    refine ⟨i, j, ti, tj, ?_, ?_, by omega, by omega, hti, htj, hwin, ?_⟩
    · rw [hinf]; rfl
    · rw [hinf]; rfl
    · rw [hinf]; rfl

/-- Witness of C6: three tracks of energies 1/2, 1/2 and 2 with a window of 1/10; the first
two make a candidate. -/
theorem findPhiCandidates_spec_witness :
    ∃ added, findPhiCandidates sampleSelection [] [(['w'], (1 / 10 : Rat))]
        [(1 / 2 : Rat), 1 / 2, 2] [] = some ([] ++ added)
      ∧ ∀ info ∈ added, ∃ (i j : Nat) (ti tj : Rat),
          info.indx1 = (i : Int) ∧ info.indx2 = (j : Int)
          ∧ i < j ∧ j < [(1 / 2 : Rat), 1 / 2, 2].length
          ∧ [(1 / 2 : Rat), 1 / 2, 2][i]? = some ti ∧ [(1 / 2 : Rat), 1 / 2, 2][j]? = some tj
          ∧ |sampleSelection.M (sampleSelection.phiLV ti tj) - phi_polemass| ≤ 1 / 10
          ∧ info.dmass = sampleSelection.M (sampleSelection.phiLV ti tj) - phi_polemass :=
  findPhiCandidates_spec sampleSelection [] [(['w'], (1 / 10 : Rat))] [(1 / 2 : Rat), 1 / 2, 2]
    [] (1 / 10) rfl

end BsAnalysis
